import Mathlib

/-!
Verification of the software-rasterizer core of this repository
(framebuffer with color / depth / emission buffers, post-process emission
compositing, FBM noise accumulation, and the vertex transform stage).

Modelling conventions (shallow embedding):
* `u32` values are modelled as `Nat` (all operations used by the code on
  them — shifts, masks, comparisons — never overflow 32 bits on the
  inputs that occur, since channel values are masked to `[0, 255]`).
* `f32` depth values are modelled as `WithTop ℚ`: `⊤` stands for
  `f32::INFINITY` (the clear value) and finite depths are rationals;
  the code only compares depths, and `<` on `WithTop ℚ` agrees with the
  `f32` comparison on these values (NaN never arises in the pipeline).
* `f32` arithmetic inside `blend_emission` is modelled exactly: on the
  full domain of channel values `[0,255] × [0,255]` the Rust expression
  `((c1 as f32 * 0.8) + (c2 as f32 * 0.2)).min(255.0) as u32` (an `as`
  cast truncates toward zero) returns exactly
  `⌊min (c1·(4/5) + c2·(1/5)) 255⌋` computed in exact rational
  arithmetic — this was checked exhaustively over all 65536 channel
  pairs against IEEE-754 binary32 semantics — so the rational model
  below is pointwise equal to the compiled code.
* Vectors and matrices (`nalgebra_glm` `Vec3` / `Vec4` / `Mat3` / `Mat4`)
  are modelled as structures of rationals with the explicit
  componentwise operations the library performs; `sin` (used only for
  the time-based wobble) is an opaque function parameter, since its
  value is irrelevant to every claim about `vertex_shader`.
-/

namespace Lab4

/-- Depth values: `f32` depths with `⊤` playing `f32::INFINITY`. -/
abbrev Depth : Type := WithTop ℚ

/-- `src/framebuffer.rs`: the framebuffer record.  `buffer` is the color
buffer, `zbuffer` the depth buffer, `emission_buffer` the emission buffer. -/
structure Framebuffer where
  width : Nat
  height : Nat
  buffer : List Nat
  zbuffer : List Depth
  emission_buffer : List Nat
  background_color : Nat
  current_color : Nat
deriving DecidableEq

namespace Framebuffer

/-- `Framebuffer::new`: color starts at black `0x000000`, depth at
`f32::INFINITY`, emission at `0`; background black, current color white. -/
def new (width height : Nat) : Framebuffer where
  width := width
  height := height
  buffer := List.replicate (width * height) 0
  zbuffer := List.replicate (width * height) (⊤ : Depth)
  emission_buffer := List.replicate (width * height) 0
  background_color := 0x000000
  current_color := 0xFFFFFF

/-- `Framebuffer::clear`: each loop writes a constant over the whole
buffer (modelled as a constant `map`, which preserves the length exactly
as `iter_mut` does). -/
def clear (fb : Framebuffer) : Framebuffer :=
  { fb with
    buffer := fb.buffer.map (fun _ => fb.background_color)
    zbuffer := fb.zbuffer.map (fun _ => (⊤ : Depth))
    emission_buffer := fb.emission_buffer.map (fun _ => 0) }

/-- `Framebuffer::set_background_color`. -/
def set_background_color (fb : Framebuffer) (color : Nat) : Framebuffer :=
  { fb with background_color := color }

/-- `Framebuffer::set_current_color`. -/
def set_current_color (fb : Framebuffer) (color : Nat) : Framebuffer :=
  { fb with current_color := color }

/-- `Framebuffer::point_with_emission`: bounds check, then the strict
depth test `self.zbuffer[index] > depth`; on a win all three buffers are
written.  (`getD` with defaults models the Rust indexing `self.zbuffer[index]`;
under the length invariant the index is always in range, so the default
is never consulted.) -/
def point_with_emission (fb : Framebuffer) (x y : Nat) (depth : Depth)
    (emission : Nat) : Framebuffer :=
  if x < fb.width ∧ y < fb.height then
    let index := y * fb.width + x
    if fb.zbuffer.getD index ⊤ > depth then
      { fb with
        buffer := fb.buffer.set index fb.current_color
        emission_buffer := fb.emission_buffer.set index emission
        zbuffer := fb.zbuffer.set index depth }
    else fb
  else fb

/-- The length invariant `Framebuffer::new` establishes and every
operation preserves: the three pixel arrays have `width * height`
entries. -/
def Wf (fb : Framebuffer) : Prop :=
  fb.buffer.length = fb.width * fb.height ∧
  fb.zbuffer.length = fb.width * fb.height ∧
  fb.emission_buffer.length = fb.width * fb.height

instance (fb : Framebuffer) : Decidable fb.Wf := by
  unfold Wf; infer_instance

end Framebuffer

/-- `src/main.rs` `blend_emission`: unpack the channels, blend each as
`((c1 as f32 * 0.8) + (c2 as f32 * 0.2)).min(255.0) as u32` — modelled
exactly by rational arithmetic with truncation (see the header comment) —
and repack. -/
def blend_emission (color emission : Nat) : Nat :=
  let r1 := (color >>> 16) &&& 0xFF
  let g1 := (color >>> 8) &&& 0xFF
  let b1 := color &&& 0xFF
  let r2 := (emission >>> 16) &&& 0xFF
  let g2 := (emission >>> 8) &&& 0xFF
  let b2 := emission &&& 0xFF
  let blend := fun (c1 c2 : Nat) =>
    Nat.floor (min ((c1 : ℚ) * 0.8 + (c2 : ℚ) * 0.2) 255)
  let r := blend r1 r2
  let g := blend g1 g2
  let b := blend b1 b2
  (r <<< 16) ||| (g <<< 8) ||| b

/-- `src/main.rs` `post_process`: zip the color buffer (mutably) with the
emission buffer and blend wherever the emission is nonzero. -/
def post_process (fb : Framebuffer) : Framebuffer :=
  { fb with
    buffer := List.zipWith
      (fun pixel emission =>
        if emission ≠ 0 then blend_emission pixel emission else pixel)
      fb.buffer fb.emission_buffer }

/-- The per-channel blend as the specification words it (claim C2):
`round(0.8*color_channel + 0.2*emission_channel)` clamped to 255.  Stated
from the spec only, for comparison against the code's `blend_emission`. -/
def blend_round_channel (c e : Nat) : Nat :=
  min 255 (Int.toNat (round ((c : ℚ) * 0.8 + (e : ℚ) * 0.2)))

/-- Whole-pixel version of `blend_round_channel`, packed like
`blend_emission` packs its channels. -/
def blend_round (color emission : Nat) : Nat :=
  (blend_round_channel ((color >>> 16) &&& 0xFF) ((emission >>> 16) &&& 0xFF) <<< 16) |||
  (blend_round_channel ((color >>> 8) &&& 0xFF) ((emission >>> 8) &&& 0xFF) <<< 8) |||
  blend_round_channel (color &&& 0xFF) (emission &&& 0xFF)

/-- A concrete 1×1 framebuffer: black pixel, emission `0x000003`. -/
def fbC2 : Framebuffer where
  width := 1
  height := 1
  buffer := [0]
  zbuffer := [(⊤ : Depth)]
  emission_buffer := [3]
  background_color := 0
  current_color := 0xFFFFFF

/-- One depth-tested write as `render` issues it: the caller first sets
the current color, then calls `point_with_emission` with a finite depth
(interpolated fragment depths are finite `f32` values). -/
structure WriteCall where
  x : Nat
  y : Nat
  depth : ℚ
  color : Nat
  emission : Nat
deriving DecidableEq

/-- `set_current_color` followed by `point_with_emission`, exactly as the
fragment loop in `render` does. -/
def applyCall (fb : Framebuffer) (c : WriteCall) : Framebuffer :=
  (fb.set_current_color c.color).point_with_emission c.x c.y (c.depth : Depth)
    c.emission

/-- A whole sequence of depth-tested writes. -/
def applyCalls (fb : Framebuffer) (calls : List WriteCall) : Framebuffer :=
  calls.foldl applyCall fb

/-- The view of one depth-tested write from a single pixel: the state is
(stored depth, stored color, stored emission). -/
def pixelStep (s : Depth × Nat × Nat) (c : WriteCall) : Depth × Nat × Nat :=
  if (c.depth : Depth) < s.1 then ((c.depth : Depth), c.color, c.emission) else s

/-- Minimum of the depths of a list of calls (`⊤` for the empty list). -/
def minDepth (calls : List WriteCall) : Depth :=
  calls.foldr (fun c m => min ((c.depth : Depth)) m) ⊤

/-- `src/shaders.rs` `fbm_noise`: the octave loop carries the running
(value, amplitude, frequency), starting at (0, 1, 1); octave `i` adds
`noise(x * frequency + offset, y * frequency + offset) * amplitude` with
`offset = i * 0.1`, then multiplies the amplitude by 0.6 and doubles the
frequency.  The base noise field (`FastNoiseLite::get_noise_2d`, an
external collaborator) is an opaque function parameter; real arithmetic
is modelled over ℚ. -/
def fbm_noise (noise : ℚ → ℚ → ℚ) (x y : ℚ) (octaves : Nat) : ℚ :=
  ((List.range octaves).foldl
    (fun (s : ℚ × ℚ × ℚ) (i : Nat) =>
      (s.1 + noise (x * s.2.2 + (i : ℚ) * 0.1) (y * s.2.2 + (i : ℚ) * 0.1) * s.2.1,
        s.2.1 * 0.6, s.2.2 * 2))
    (0, 1, 1)).1

/-- 2-component rational vector (`nalgebra_glm::Vec2`). -/
structure Vec2 where
  x : ℚ
  y : ℚ
deriving DecidableEq

/-- 3-component rational vector (`nalgebra_glm::Vec3`). -/
structure Vec3 where
  x : ℚ
  y : ℚ
  z : ℚ
deriving DecidableEq

/-- 4-component rational vector (`nalgebra_glm::Vec4`). -/
structure Vec4 where
  x : ℚ
  y : ℚ
  z : ℚ
  w : ℚ
deriving DecidableEq

/-- 3×3 rational matrix (`nalgebra_glm::Mat3`), row i / column j. -/
structure Mat3 where
  (m11 m12 m13 m21 m22 m23 m31 m32 m33 : ℚ)
deriving DecidableEq

/-- 4×4 rational matrix (`nalgebra_glm::Mat4`), row i / column j. -/
structure Mat4 where
  (m11 m12 m13 m14 m21 m22 m23 m24 m31 m32 m33 m34 m41 m42 m43 m44 : ℚ)
deriving DecidableEq

namespace Mat3

def transpose (A : Mat3) : Mat3 :=
  ⟨A.m11, A.m21, A.m31, A.m12, A.m22, A.m32, A.m13, A.m23, A.m33⟩

def identity : Mat3 := ⟨1, 0, 0, 0, 1, 0, 0, 0, 1⟩

/-- Determinant by cofactor expansion along the first row, as `nalgebra`
computes it for 3×3 matrices. -/
def det (A : Mat3) : ℚ :=
  A.m11 * (A.m22 * A.m33 - A.m23 * A.m32)
    - A.m12 * (A.m21 * A.m33 - A.m23 * A.m31)
    + A.m13 * (A.m21 * A.m32 - A.m22 * A.m31)

/-- Cofactor (adjugate) inverse scaled by the determinant, the explicit
3×3 inverse `nalgebra`'s `try_inverse` produces.  (Each entry divides by
`A.det`; the definition is only consulted when `A.det ≠ 0`.) -/
def inverse (A : Mat3) : Mat3 where
  m11 := (A.m22 * A.m33 - A.m23 * A.m32) / A.det
  m12 := (A.m13 * A.m32 - A.m12 * A.m33) / A.det
  m13 := (A.m12 * A.m23 - A.m13 * A.m22) / A.det
  m21 := (A.m23 * A.m31 - A.m21 * A.m33) / A.det
  m22 := (A.m11 * A.m33 - A.m13 * A.m31) / A.det
  m23 := (A.m13 * A.m21 - A.m11 * A.m23) / A.det
  m31 := (A.m21 * A.m32 - A.m22 * A.m31) / A.det
  m32 := (A.m12 * A.m31 - A.m11 * A.m32) / A.det
  m33 := (A.m11 * A.m22 - A.m12 * A.m21) / A.det

/-- `nalgebra` `Mat3::try_inverse`: `None` exactly when the determinant
vanishes, otherwise the cofactor inverse. -/
def tryInverse (A : Mat3) : Option Mat3 :=
  if A.det = 0 then none else some A.inverse

def mul (A B : Mat3) : Mat3 where
  m11 := A.m11 * B.m11 + A.m12 * B.m21 + A.m13 * B.m31
  m12 := A.m11 * B.m12 + A.m12 * B.m22 + A.m13 * B.m32
  m13 := A.m11 * B.m13 + A.m12 * B.m23 + A.m13 * B.m33
  m21 := A.m21 * B.m11 + A.m22 * B.m21 + A.m23 * B.m31
  m22 := A.m21 * B.m12 + A.m22 * B.m22 + A.m23 * B.m32
  m23 := A.m21 * B.m13 + A.m22 * B.m23 + A.m23 * B.m33
  m31 := A.m31 * B.m11 + A.m32 * B.m21 + A.m33 * B.m31
  m32 := A.m31 * B.m12 + A.m32 * B.m22 + A.m33 * B.m32
  m33 := A.m31 * B.m13 + A.m32 * B.m23 + A.m33 * B.m33

def mulVec (A : Mat3) (v : Vec3) : Vec3 where
  x := A.m11 * v.x + A.m12 * v.y + A.m13 * v.z
  y := A.m21 * v.x + A.m22 * v.y + A.m23 * v.z
  z := A.m31 * v.x + A.m32 * v.y + A.m33 * v.z

end Mat3

namespace Mat4

def mul (A B : Mat4) : Mat4 where
  m11 := A.m11 * B.m11 + A.m12 * B.m21 + A.m13 * B.m31 + A.m14 * B.m41
  m12 := A.m11 * B.m12 + A.m12 * B.m22 + A.m13 * B.m32 + A.m14 * B.m42
  m13 := A.m11 * B.m13 + A.m12 * B.m23 + A.m13 * B.m33 + A.m14 * B.m43
  m14 := A.m11 * B.m14 + A.m12 * B.m24 + A.m13 * B.m34 + A.m14 * B.m44
  m21 := A.m21 * B.m11 + A.m22 * B.m21 + A.m23 * B.m31 + A.m24 * B.m41
  m22 := A.m21 * B.m12 + A.m22 * B.m22 + A.m23 * B.m32 + A.m24 * B.m42
  m23 := A.m21 * B.m13 + A.m22 * B.m23 + A.m23 * B.m33 + A.m24 * B.m43
  m24 := A.m21 * B.m14 + A.m22 * B.m24 + A.m23 * B.m34 + A.m24 * B.m44
  m31 := A.m31 * B.m11 + A.m32 * B.m21 + A.m33 * B.m31 + A.m34 * B.m41
  m32 := A.m31 * B.m12 + A.m32 * B.m22 + A.m33 * B.m32 + A.m34 * B.m42
  m33 := A.m31 * B.m13 + A.m32 * B.m23 + A.m33 * B.m33 + A.m34 * B.m43
  m34 := A.m31 * B.m14 + A.m32 * B.m24 + A.m33 * B.m34 + A.m34 * B.m44
  m41 := A.m41 * B.m11 + A.m42 * B.m21 + A.m43 * B.m31 + A.m44 * B.m41
  m42 := A.m41 * B.m12 + A.m42 * B.m22 + A.m43 * B.m32 + A.m44 * B.m42
  m43 := A.m41 * B.m13 + A.m42 * B.m23 + A.m43 * B.m33 + A.m44 * B.m43
  m44 := A.m41 * B.m14 + A.m42 * B.m24 + A.m43 * B.m34 + A.m44 * B.m44

def mulVec (A : Mat4) (v : Vec4) : Vec4 where
  x := A.m11 * v.x + A.m12 * v.y + A.m13 * v.z + A.m14 * v.w
  y := A.m21 * v.x + A.m22 * v.y + A.m23 * v.z + A.m24 * v.w
  z := A.m31 * v.x + A.m32 * v.y + A.m33 * v.z + A.m34 * v.w
  w := A.m41 * v.x + A.m42 * v.y + A.m43 * v.z + A.m44 * v.w

/-- The identity 4×4 matrix (used for concrete witnesses). -/
def identity : Mat4 := ⟨1, 0, 0, 0, 0, 1, 0, 0, 0, 0, 1, 0, 0, 0, 0, 1⟩

end Mat4

/-- `nalgebra_glm::mat4_to_mat3`: the top-left 3×3 linear part. -/
def mat4_to_mat3 (A : Mat4) : Mat3 :=
  ⟨A.m11, A.m12, A.m13, A.m21, A.m22, A.m23, A.m31, A.m32, A.m33⟩

/-- Modelled from the spec: the repository's `Color` type lives in
`src/color.rs`, which is not among the provided sources; the spec
describes it as an RGB triple.  The claims settled here only require
that vertex colors are carried through unchanged, so only the carrier
matters. -/
structure Color where
  r : ℚ
  g : ℚ
  b : ℚ
deriving DecidableEq

/-- Modelled from the spec: the `Vertex` record lives in `src/vertex.rs`,
which is not among the provided sources; the spec lists position, normal,
texture coordinates, intrinsic color, transformed (screen-space) position
and transformed normal — matching exactly the fields `src/shaders.rs`
reads and the record literal `vertex_shader` builds. -/
structure Vertex where
  position : Vec3
  normal : Vec3
  tex_coords : Vec2
  color : Color
  transformed_position : Vec3
  transformed_normal : Vec3
deriving DecidableEq

/-- `src/main.rs` `Uniforms`: the per-frame bundle.  The noise handle is
an opaque deterministic function, as in the spec's contract. -/
structure Uniforms where
  model_matrix : Mat4
  view_matrix : Mat4
  projection_matrix : Mat4
  viewport_matrix : Mat4
  time : Nat
  noise : ℚ → ℚ → ℚ

/-- `src/shaders.rs` `vertex_shader`.  `sinf` models `f32::sin` as an
opaque function (its value is irrelevant to the claims); rational
division is total with `x / 0 = 0`, standing in for the unguarded `f32`
divide (the `w = 0` case is outside every claim settled here). -/
def vertex_shader (sinf : ℚ → ℚ) (vertex : Vertex) (uniforms : Uniforms) :
    Vertex :=
  let wobble := sinf ((uniforms.time : ℚ) * 0.02) * 0.05
  let position : Vec4 :=
    { x := vertex.position.x + wobble * vertex.position.y
      y := vertex.position.y + wobble * vertex.position.z
      z := vertex.position.z
      w := 1 }
  let transformed :=
    ((uniforms.projection_matrix.mul uniforms.view_matrix).mul
      uniforms.model_matrix).mulVec position
  let w := transformed.w
  let transformed_position : Vec4 :=
    { x := transformed.x / w
      y := transformed.y / w
      z := transformed.z / w
      w := 1 }
  let screen_position := uniforms.viewport_matrix.mulVec transformed_position
  let model_mat3 := mat4_to_mat3 uniforms.model_matrix
  let normal_matrix := (model_mat3.transpose.tryInverse).getD Mat3.identity
  let transformed_normal := normal_matrix.mulVec vertex.normal
  { position := vertex.position
    normal := vertex.normal
    tex_coords := vertex.tex_coords
    color := vertex.color
    transformed_position :=
      { x := screen_position.x, y := screen_position.y, z := screen_position.z }
    transformed_normal := transformed_normal }

/-- Concrete uniforms for witnesses: identity matrices, time 0, zero
noise. -/
def uWitness : Uniforms :=
  ⟨Mat4.identity, Mat4.identity, Mat4.identity, Mat4.identity, 0, fun _ _ => 0⟩

/-- A concrete vertex for witnesses. -/
def vWitness : Vertex :=
  ⟨⟨1, 2, 3⟩, ⟨4, 5, 6⟩, ⟨0, 1⟩, ⟨7, 8, 9⟩, ⟨0, 0, 0⟩, ⟨0, 0, 0⟩⟩

/-! ### Small list lemmas used throughout -/

theorem getD_set_self {α : Type} (l : List α) (i : Nat) (a d : α)
    (h : i < l.length) : (l.set i a).getD i d = a := by
  induction l generalizing i with
  | nil => simp at h
  | cons x xs ih =>
    cases i with
    | zero => simp [List.set, List.getD]
    | succ n =>
      simp only [List.set, List.getD_cons_succ]
      exact ih n (by simpa using h)

theorem getD_set_ne {α : Type} (l : List α) (i j : Nat) (a d : α)
    (h : i ≠ j) : (l.set i a).getD j d = l.getD j d := by
  induction l generalizing i j with
  | nil => simp [List.set]
  | cons x xs ih =>
    cases i with
    | zero =>
      cases j with
      | zero => exact absurd rfl h
      | succ m => simp [List.set]
    | succ n =>
      cases j with
      | zero => simp [List.set]
      | succ m =>
        simp only [List.set, List.getD_cons_succ]
        exact ih n m (fun hc => h (by simp [hc]))

theorem getD_replicate {α : Type} (n i : Nat) (a d : α) (h : i < n) :
    (List.replicate n a).getD i d = a := by
  induction n generalizing i with
  | zero => omega
  | succ m ih =>
    cases i with
    | zero => simp [List.replicate]
    | succ k =>
      simp only [List.replicate, List.getD_cons_succ]
      exact ih k (by omega)

theorem map_const_eq_replicate {α β : Type} (l : List α) (b : β) :
    l.map (fun _ => b) = List.replicate l.length b := by
  induction l with
  | nil => rfl
  | cons x xs ih => simp [List.replicate, ih]

/-- Row-major pixel index: in-bounds coordinates give an in-bounds index. -/
theorem index_lt {x y w h : Nat} (hx : x < w) (hy : y < h) :
    y * w + x < w * h := by
  calc y * w + x < y * w + w := by omega
  _ = (y + 1) * w := by ring
  _ ≤ h * w := Nat.mul_le_mul_right w hy
  _ = w * h := Nat.mul_comm h w

/-- Row-major pixel indices of distinct in-bounds pixels differ. -/
theorem index_ne {x y x2 y2 w h : Nat} (hx : x < w) (_hy : y < h)
    (hx2 : x2 < w) (_hy2 : y2 < h) (hne : ¬(x2 = x ∧ y2 = y)) :
    y2 * w + x2 ≠ y * w + x := by
  intro heq
  apply hne
  have hy2y : y2 = y := by
    rcases Nat.lt_trichotomy y2 y with hlt | heq2 | hgt
    · exfalso
      have : y2 * w + x2 < y * w + x := by
        calc y2 * w + x2 < y2 * w + w := by omega
        _ = (y2 + 1) * w := by ring
        _ ≤ y * w := Nat.mul_le_mul_right w hlt
        _ ≤ y * w + x := by omega
      omega
    · exact heq2
    · exfalso
      have : y * w + x < y2 * w + x2 := by
        calc y * w + x < y * w + w := by omega
        _ = (y + 1) * w := by ring
        _ ≤ y2 * w := Nat.mul_le_mul_right w hgt
        _ ≤ y2 * w + x2 := by omega
      omega
  subst hy2y
  have : x2 = x := by omega
  exact ⟨this, rfl⟩

/-! ### Frame lemmas for the framebuffer operations -/

/-- `point_with_emission` never changes the dimensions, the lengths of the
three pixel arrays, or the two configuration colors. -/
theorem point_with_emission_preserve (fb : Framebuffer) (x y : Nat)
    (d : Depth) (e : Nat) :
    (fb.point_with_emission x y d e).width = fb.width ∧
    (fb.point_with_emission x y d e).height = fb.height ∧
    (fb.point_with_emission x y d e).buffer.length = fb.buffer.length ∧
    (fb.point_with_emission x y d e).zbuffer.length = fb.zbuffer.length ∧
    (fb.point_with_emission x y d e).emission_buffer.length
      = fb.emission_buffer.length ∧
    (fb.point_with_emission x y d e).background_color = fb.background_color ∧
    (fb.point_with_emission x y d e).current_color = fb.current_color := by
  unfold Framebuffer.point_with_emission
  split
  · dsimp only
    split <;> simp
  · simp

/-- On a depth-test win, `point_with_emission` is exactly the three-way
update of the pixel arrays. -/
theorem point_with_emission_win (fb : Framebuffer) (x y : Nat)
    (d : Depth) (e : Nat) (hx : x < fb.width) (hy : y < fb.height)
    (hd : d < fb.zbuffer.getD (y * fb.width + x) ⊤) :
    fb.point_with_emission x y d e =
      { fb with
        buffer := fb.buffer.set (y * fb.width + x) fb.current_color
        emission_buffer := fb.emission_buffer.set (y * fb.width + x) e
        zbuffer := fb.zbuffer.set (y * fb.width + x) d } := by
  unfold Framebuffer.point_with_emission
  rw [if_pos ⟨hx, hy⟩]
  exact if_pos hd

/-- On a depth-test loss (tie included), `point_with_emission` returns the
framebuffer unchanged. -/
theorem point_with_emission_lose (fb : Framebuffer) (x y : Nat)
    (d : Depth) (e : Nat) (hx : x < fb.width) (hy : y < fb.height)
    (hd : ¬ d < fb.zbuffer.getD (y * fb.width + x) ⊤) :
    fb.point_with_emission x y d e = fb := by
  unfold Framebuffer.point_with_emission
  rw [if_pos ⟨hx, hy⟩]
  exact if_neg hd

/-! ### Claim theorems over the framebuffer -/

/-- C1: for an in-bounds depth-tested write, if the stored depth at the
pixel is strictly greater than the incoming depth, then the pixel color is
set to the current color, the emission to the incoming emission, and the
stored depth to the incoming depth, all together (and no other pixel
moves); if the stored depth is equal to or below the incoming depth,
nothing changes at all. -/
theorem C1_depth_tested_write (fb : Framebuffer) (x y : Nat) (d : Depth)
    (e : Nat) (hwf : fb.Wf) (hx : x < fb.width) (hy : y < fb.height) :
    (d < fb.zbuffer.getD (y * fb.width + x) ⊤ →
      (fb.point_with_emission x y d e).buffer.getD (y * fb.width + x) 0
          = fb.current_color ∧
      (fb.point_with_emission x y d e).emission_buffer.getD (y * fb.width + x) 0
          = e ∧
      (fb.point_with_emission x y d e).zbuffer.getD (y * fb.width + x) ⊤ = d ∧
      (∀ j, j ≠ y * fb.width + x →
        (fb.point_with_emission x y d e).buffer.getD j 0 = fb.buffer.getD j 0 ∧
        (fb.point_with_emission x y d e).emission_buffer.getD j 0
            = fb.emission_buffer.getD j 0 ∧
        (fb.point_with_emission x y d e).zbuffer.getD j ⊤
            = fb.zbuffer.getD j ⊤)) ∧
    (¬ d < fb.zbuffer.getD (y * fb.width + x) ⊤ →
      fb.point_with_emission x y d e = fb) := by
  have hib : y * fb.width + x < fb.buffer.length := by
    rw [hwf.1]; exact index_lt hx hy
  have hiz : y * fb.width + x < fb.zbuffer.length := by
    rw [hwf.2.1]; exact index_lt hx hy
  have hie : y * fb.width + x < fb.emission_buffer.length := by
    rw [hwf.2.2]; exact index_lt hx hy
  constructor
  · intro hd
    rw [point_with_emission_win fb x y d e hx hy hd]
    refine ⟨getD_set_self _ _ _ _ hib, getD_set_self _ _ _ _ hie,
      getD_set_self _ _ _ _ hiz, ?_⟩
    intro j hj
    exact ⟨getD_set_ne _ _ _ _ _ (Ne.symm hj), getD_set_ne _ _ _ _ _ (Ne.symm hj),
      getD_set_ne _ _ _ _ _ (Ne.symm hj)⟩
  · intro hd
    exact point_with_emission_lose fb x y d e hx hy hd

/-- C1 witness: on a fresh 1×1 framebuffer (stored depth `+∞`), writing
depth 2 with emission 5 updates color, emission and depth together. -/
theorem C1_depth_tested_write_witness :
    ((2 : ℚ) : Depth) < (Framebuffer.new 1 1).zbuffer.getD 0 ⊤ ∧
    ((Framebuffer.new 1 1).point_with_emission 0 0 ((2 : ℚ) : Depth) 5).buffer.getD 0 0
        = 0xFFFFFF ∧
    ((Framebuffer.new 1 1).point_with_emission 0 0 ((2 : ℚ) : Depth) 5).emission_buffer.getD 0 0
        = 5 ∧
    ((Framebuffer.new 1 1).point_with_emission 0 0 ((2 : ℚ) : Depth) 5).zbuffer.getD 0 ⊤
        = ((2 : ℚ) : Depth) := by
  have hd : ((2 : ℚ) : Depth) < (Framebuffer.new 1 1).zbuffer.getD 0 ⊤ := by decide
  have h := (C1_depth_tested_write (Framebuffer.new 1 1) 0 0 ((2 : ℚ) : Depth) 5
    (by decide) (by decide) (by decide)).1 hd
  exact ⟨hd, h.1, h.2.1, h.2.2.1⟩

/-- C4: an out-of-bounds depth-tested write is a total no-op: every field
of the framebuffer, in particular all three pixel arrays, is unchanged,
and the call is a total function (it cannot fail). -/
theorem C4_out_of_bounds_noop (fb : Framebuffer) (x y : Nat) (d : Depth)
    (e : Nat) (h : fb.width ≤ x ∨ fb.height ≤ y) :
    fb.point_with_emission x y d e = fb := by
  unfold Framebuffer.point_with_emission
  rw [if_neg]
  rintro ⟨hx, hy⟩
  rcases h with h | h <;> omega

/-- C4 witness: writing at x = 5 on a 2×2 framebuffer changes nothing. -/
theorem C4_out_of_bounds_noop_witness :
    (Framebuffer.new 2 2).point_with_emission 5 0 ((1 : ℚ) : Depth) 3
      = Framebuffer.new 2 2 :=
  C4_out_of_bounds_noop (Framebuffer.new 2 2) 5 0 _ 3 (Or.inl (by decide))

/-- C6: `clear` is idempotent — clearing twice gives exactly the state of
clearing once — and a single `clear` sets every pixel color to the
configured background, every depth to `+∞`, and every emission to 0. -/
theorem C6_clear_idempotent (fb : Framebuffer) :
    fb.clear.clear = fb.clear ∧
    fb.clear.buffer = List.replicate fb.buffer.length fb.background_color ∧
    fb.clear.zbuffer = List.replicate fb.zbuffer.length (⊤ : Depth) ∧
    fb.clear.emission_buffer = List.replicate fb.emission_buffer.length 0 := by
  cases fb with
  | mk w h b z em bg cc =>
    simp [Framebuffer.clear, map_const_eq_replicate]

/-- C9: the post-process compositor mutates only the color buffer: depth
buffer, emission buffer, and the dimensions are untouched. -/
theorem C9_post_process_touches_only_color (fb : Framebuffer) :
    (post_process fb).zbuffer = fb.zbuffer ∧
    (post_process fb).emission_buffer = fb.emission_buffer ∧
    (post_process fb).width = fb.width ∧
    (post_process fb).height = fb.height :=
  ⟨rfl, rfl, rfl, rfl⟩

/-- C10: `new` builds the three arrays with `width * height` entries
(color `0x000000`, depth `+∞`, emission 0), and every framebuffer
operation preserves the dimensions and the array lengths. -/
theorem C10_length_invariant (w h : Nat) (fb : Framebuffer) (c x y : Nat)
    (d : Depth) (e : Nat) :
    ((Framebuffer.new w h).width = w ∧ (Framebuffer.new w h).height = h ∧
      (Framebuffer.new w h).buffer = List.replicate (w * h) 0x000000 ∧
      (Framebuffer.new w h).zbuffer = List.replicate (w * h) (⊤ : Depth) ∧
      (Framebuffer.new w h).emission_buffer = List.replicate (w * h) 0) ∧
    (fb.clear.width = fb.width ∧ fb.clear.height = fb.height ∧
      fb.clear.buffer.length = fb.buffer.length ∧
      fb.clear.zbuffer.length = fb.zbuffer.length ∧
      fb.clear.emission_buffer.length = fb.emission_buffer.length) ∧
    ((fb.set_background_color c).width = fb.width ∧
      (fb.set_background_color c).height = fb.height ∧
      (fb.set_background_color c).buffer = fb.buffer ∧
      (fb.set_background_color c).zbuffer = fb.zbuffer ∧
      (fb.set_background_color c).emission_buffer = fb.emission_buffer) ∧
    ((fb.set_current_color c).width = fb.width ∧
      (fb.set_current_color c).height = fb.height ∧
      (fb.set_current_color c).buffer = fb.buffer ∧
      (fb.set_current_color c).zbuffer = fb.zbuffer ∧
      (fb.set_current_color c).emission_buffer = fb.emission_buffer) ∧
    ((fb.point_with_emission x y d e).width = fb.width ∧
      (fb.point_with_emission x y d e).height = fb.height ∧
      (fb.point_with_emission x y d e).buffer.length = fb.buffer.length ∧
      (fb.point_with_emission x y d e).zbuffer.length = fb.zbuffer.length ∧
      (fb.point_with_emission x y d e).emission_buffer.length
        = fb.emission_buffer.length) := by
  have hp := point_with_emission_preserve fb x y d e
  exact ⟨⟨rfl, rfl, rfl, rfl, rfl⟩,
    ⟨rfl, rfl, by simp [Framebuffer.clear], by simp [Framebuffer.clear],
      by simp [Framebuffer.clear]⟩,
    ⟨rfl, rfl, rfl, rfl, rfl⟩,
    ⟨rfl, rfl, rfl, rfl, rfl⟩,
    ⟨hp.1, hp.2.1, hp.2.2.1, hp.2.2.2.1, hp.2.2.2.2.1⟩⟩

theorem getD_zipWith {α β γ : Type} (f : α → β → γ) (l1 : List α)
    (l2 : List β) (i : Nat) (d1 : α) (d2 : β) (d3 : γ)
    (h1 : i < l1.length) (h2 : i < l2.length) :
    (List.zipWith f l1 l2).getD i d3 = f (l1.getD i d1) (l2.getD i d2) := by
  induction l1 generalizing l2 i with
  | nil => simp at h1
  | cons a as ih =>
    cases l2 with
    | nil => simp at h2
    | cons b bs =>
      cases i with
      | zero => simp [List.getD]
      | succ n =>
        simp only [List.zipWith, List.getD_cons_succ]
        exact ih bs n (by simpa using h1) (by simpa using h2)

/-- The exact-rational channel blend with truncation equals the natural
number formula `min 255 ((4c + e) / 5)` (integer division). -/
theorem blend_channel_eq (c e : Nat) :
    Nat.floor (min ((c : ℚ) * 0.8 + (e : ℚ) * 0.2) 255)
      = min 255 ((4 * c + e) / 5) := by
  have hval : (c : ℚ) * 0.8 + (e : ℚ) * 0.2 = ((4 * c + e : ℕ) : ℚ) / 5 := by
    push_cast
    ring
  rw [hval]
  by_cases hle : ((4 * c + e : ℕ) : ℚ) / 5 ≤ 255
  · rw [min_eq_left hle, Nat.floor_div_ofNat, Nat.floor_natCast]
    have hn : (4 * c + e) / 5 ≤ 255 := by
      have h5 : (4 * c + e : ℚ) ≤ 1275 := by
        have := (div_le_iff₀ (by norm_num : (0:ℚ) < 5)).mp hle
        linarith
      have hnn : 4 * c + e ≤ 1275 := by exact_mod_cast h5
      calc (4 * c + e) / 5 ≤ 1275 / 5 := Nat.div_le_div_right hnn
      _ = 255 := by norm_num
    rw [min_eq_right hn]
  · push_neg at hle
    rw [min_eq_right (le_of_lt hle)]
    have h5 : (1275 : ℚ) < ((4 * c + e : ℕ) : ℚ) := by
      have := (lt_div_iff₀ (by norm_num : (0:ℚ) < 5)).mp hle
      linarith
    have hnn : 1275 < 4 * c + e := by exact_mod_cast h5
    have hge : 255 ≤ (4 * c + e) / 5 :=
      (Nat.le_div_iff_mul_le (by norm_num)).mpr (by omega)
    rw [min_eq_left hge]
    norm_num

/-- `blend_emission` computed in closed natural-number form. -/
theorem blend_emission_eq (c e : Nat) :
    blend_emission c e =
      (min 255 ((4 * ((c >>> 16) &&& 0xFF) + ((e >>> 16) &&& 0xFF)) / 5) <<< 16) |||
      (min 255 ((4 * ((c >>> 8) &&& 0xFF) + ((e >>> 8) &&& 0xFF)) / 5) <<< 8) |||
      min 255 ((4 * (c &&& 0xFF) + (e &&& 0xFF)) / 5) := by
  unfold blend_emission
  simp only [blend_channel_eq]

/-- C2 (amended): for a pixel with nonzero stored emission, the
post-process pass sets each color channel to the truncation
`⌊0.8·color + 0.2·emission⌋` clamped to 255 (equivalently
`min 255 ((4c + e) / 5)` in integers) — truncation toward zero, not
rounding; pixels with zero emission keep their color unchanged. -/
theorem C2_post_process_blend (fb : Framebuffer) (hwf : fb.Wf) (i : Nat)
    (hi : i < fb.width * fb.height) :
    (fb.emission_buffer.getD i 0 ≠ 0 →
      (post_process fb).buffer.getD i 0 =
        (min 255 ((4 * ((fb.buffer.getD i 0 >>> 16) &&& 0xFF)
            + ((fb.emission_buffer.getD i 0 >>> 16) &&& 0xFF)) / 5) <<< 16) |||
        (min 255 ((4 * ((fb.buffer.getD i 0 >>> 8) &&& 0xFF)
            + ((fb.emission_buffer.getD i 0 >>> 8) &&& 0xFF)) / 5) <<< 8) |||
        min 255 ((4 * (fb.buffer.getD i 0 &&& 0xFF)
            + (fb.emission_buffer.getD i 0 &&& 0xFF)) / 5)) ∧
    (fb.emission_buffer.getD i 0 = 0 →
      (post_process fb).buffer.getD i 0 = fb.buffer.getD i 0) := by
  have hib : i < fb.buffer.length := by rw [hwf.1]; exact hi
  have hie : i < fb.emission_buffer.length := by rw [hwf.2.2]; exact hi
  have hzip : (post_process fb).buffer.getD i 0 =
      (if fb.emission_buffer.getD i 0 ≠ 0
        then blend_emission (fb.buffer.getD i 0) (fb.emission_buffer.getD i 0)
        else fb.buffer.getD i 0) := by
    unfold post_process
    exact getD_zipWith _ fb.buffer fb.emission_buffer i 0 0 0 hib hie
  constructor
  · intro hne
    rw [hzip, if_pos hne, blend_emission_eq]
  · intro hz
    rw [hzip, if_neg (fun hcon => hcon hz)]

/-- C2 counterexample: on a black pixel with emission `0x000003` the code
leaves the pixel at 0 (truncation of 0.6), while the claimed rounding
formula would give 1. -/
theorem C2_round_counterexample :
    (post_process fbC2).buffer.getD 0 0
      ≠ blend_round (fbC2.buffer.getD 0 0) (fbC2.emission_buffer.getD 0 0) := by
  have hcode : (post_process fbC2).buffer.getD 0 0 = blend_emission 0 3 := rfl
  have hval : blend_emission 0 3 = 0 := by
    rw [blend_emission_eq]
    decide
  have hround : blend_round (fbC2.buffer.getD 0 0) (fbC2.emission_buffer.getD 0 0)
      = 1 := by
    show blend_round 0 3 = 1
    have hc0 : blend_round_channel 0 0 = 0 := by
      unfold blend_round_channel
      norm_num [round_eq]
    have hc3 : blend_round_channel 0 3 = 1 := by
      unfold blend_round_channel
      norm_num [round_eq]
    have ha : (0 : ℕ) >>> 16 &&& 0xFF = 0 := rfl
    have hb : (3 : ℕ) >>> 16 &&& 0xFF = 0 := rfl
    have hc : (0 : ℕ) >>> 8 &&& 0xFF = 0 := rfl
    have hd : (3 : ℕ) >>> 8 &&& 0xFF = 0 := rfl
    have he : (0 : ℕ) &&& 0xFF = 0 := rfl
    have hf : (3 : ℕ) &&& 0xFF = 3 := rfl
    unfold blend_round
    rw [ha, hb, hc, hd, he, hf, hc0, hc3]
    decide
  rw [hcode, hval, hround]
  decide

/-- C2 witness: the amended theorem applied to the concrete 1×1
framebuffer with emission 3 yields pixel value 0. -/
theorem C2_post_process_blend_witness :
    (post_process fbC2).buffer.getD 0 0 = 0 := by
  have h := (C2_post_process_blend fbC2 (by decide) 0 (by decide)).1 (by decide)
  rw [h]
  decide

/-! ### The per-pixel fold: pure characterization -/

theorem minDepth_cons (a : WriteCall) (L : List WriteCall) :
    minDepth (a :: L) = min ((a.depth : Depth)) (minDepth L) := rfl

theorem minDepth_le_of_mem {L : List WriteCall} {c : WriteCall} (h : c ∈ L) :
    minDepth L ≤ (c.depth : Depth) := by
  induction L with
  | nil => cases h
  | cons a L ih =>
    rcases List.mem_cons.mp h with h | h
    · rw [minDepth_cons, h]
      exact min_le_left _ _
    · rw [minDepth_cons]
      exact le_trans (min_le_right _ _) (ih h)

theorem foldl_pixelStep_fst (L : List WriteCall) :
    ∀ s : Depth × Nat × Nat, (L.foldl pixelStep s).1 = min s.1 (minDepth L) := by
  induction L with
  | nil =>
    intro s
    simp [minDepth]
  | cons a L ih =>
    intro s
    rw [List.foldl_cons, ih]
    have hstep : (pixelStep s a).1 = min s.1 ((a.depth : Depth)) := by
      unfold pixelStep
      split
      · next h => exact (min_eq_right (le_of_lt h)).symm
      · next h => exact (min_eq_left (le_of_not_lt h)).symm
    rw [hstep, minDepth_cons, min_assoc]

theorem foldl_pixelStep_stable (L : List WriteCall) :
    ∀ s : Depth × Nat × Nat, s.1 ≤ minDepth L → L.foldl pixelStep s = s := by
  induction L with
  | nil => intro s _; rfl
  | cons a L ih =>
    intro s hs
    rw [minDepth_cons] at hs
    have h1 : s.1 ≤ (a.depth : Depth) := le_trans hs (min_le_left _ _)
    have h2 : s.1 ≤ minDepth L := le_trans hs (min_le_right _ _)
    rw [List.foldl_cons]
    have hstep : pixelStep s a = s := by
      unfold pixelStep
      rw [if_neg (not_lt.mpr h1)]
    rw [hstep]
    exact ih s h2

theorem foldl_pixelStep_find (L : List WriteCall) :
    ∀ (s : Depth × Nat × Nat) (q : ℚ) (c : WriteCall),
    minDepth L = (q : Depth) → (q : Depth) < s.1 →
    L.find? (fun c2 => decide (c2.depth = q)) = some c →
    L.foldl pixelStep s = ((q : Depth), c.color, c.emission) := by
  induction L with
  | nil =>
    intro s q c hmin _ _
    exact absurd hmin (by simp [minDepth])
  | cons a L ih =>
    intro s q c hmin hlt hfind
    rw [minDepth_cons] at hmin
    rw [List.find?_cons_eq_some] at hfind
    by_cases hqa : a.depth = q
    · have hac : a = c := by
        rcases hfind with ⟨_, h⟩ | ⟨hneg, _⟩
        · exact h
        · exfalso
          simp [hqa] at hneg
      subst hac
      have hlt_a : ((a.depth : ℚ) : Depth) < s.1 := by rw [hqa]; exact hlt
      have hstep : pixelStep s a = ((a.depth : Depth), a.color, a.emission) := by
        unfold pixelStep
        rw [if_pos hlt_a]
      rw [List.foldl_cons, hstep]
      have hq_le : (q : Depth) ≤ minDepth L := hmin ▸ min_le_right _ _
      have hstay := foldl_pixelStep_stable L ((a.depth : Depth), a.color, a.emission)
        (by rw [hqa]; exact hq_le)
      rw [hstay, hqa]
    · have hfind2 : List.find? (fun c2 => decide (c2.depth = q)) L = some c := by
        rcases hfind with ⟨hpos, _⟩ | ⟨_, h⟩
        · exfalso
          simp at hpos
          exact hqa hpos
        · exact h
      rcases min_cases ((a.depth : Depth)) (minDepth L) with ⟨h1, _⟩ | ⟨h1, h2⟩
      · rw [h1] at hmin
        exact absurd (WithTop.coe_injective hmin) hqa
      · rw [h1] at hmin
        have hq_lt_a : (q : Depth) < (a.depth : Depth) := hmin ▸ h2
        rw [List.foldl_cons]
        refine ih (pixelStep s a) q c hmin ?_ hfind2
        unfold pixelStep
        split
        · exact hq_lt_a
        · exact hlt

/-- When the minimum depth of a list is attained (finite), `find?` for
that depth succeeds. -/
theorem find?_of_minDepth (L : List WriteCall) :
    ∀ q : ℚ, minDepth L = (q : Depth) →
    ∃ c0, L.find? (fun c2 => decide (c2.depth = q)) = some c0 := by
  induction L with
  | nil =>
    intro q hmin
    exact absurd hmin (by simp [minDepth])
  | cons a L ih =>
    intro q hmin
    rw [minDepth_cons] at hmin
    by_cases hqa : a.depth = q
    · exact ⟨a, List.find?_cons_eq_some.mpr (Or.inl ⟨by simp [hqa], rfl⟩)⟩
    · rcases min_cases ((a.depth : Depth)) (minDepth L) with ⟨h1, _⟩ | ⟨h1, _⟩
      · rw [h1] at hmin
        exact absurd (WithTop.coe_injective hmin) hqa
      · rw [h1] at hmin
        obtain ⟨c0, hc0⟩ := ih q hmin
        exact ⟨c0, List.find?_cons_eq_some.mpr (Or.inr ⟨by simp [hqa], hc0⟩)⟩

/-! ### Relating `applyCalls` to the per-pixel fold -/

theorem applyCall_preserve (fb : Framebuffer) (c : WriteCall) :
    (applyCall fb c).width = fb.width ∧ (applyCall fb c).height = fb.height ∧
    (applyCall fb c).buffer.length = fb.buffer.length ∧
    (applyCall fb c).zbuffer.length = fb.zbuffer.length ∧
    (applyCall fb c).emission_buffer.length = fb.emission_buffer.length ∧
    (applyCall fb c).background_color = fb.background_color := by
  have h := point_with_emission_preserve (fb.set_current_color c.color) c.x c.y
    ((c.depth : Depth)) c.emission
  exact ⟨h.1, h.2.1, h.2.2.1, h.2.2.2.1, h.2.2.2.2.1, h.2.2.2.2.2.1⟩

/-- One `applyCall` viewed from a fixed in-bounds pixel is exactly one
`pixelStep` when the call targets that pixel, and the identity when it
targets a different pixel. -/
theorem applyCall_state (fb : Framebuffer) (c : WriteCall) (hwf : fb.Wf)
    (hcx : c.x < fb.width) (hcy : c.y < fb.height) (x y : Nat)
    (hx : x < fb.width) (hy : y < fb.height) :
    ((applyCall fb c).zbuffer.getD (y * fb.width + x) ⊤,
     (applyCall fb c).buffer.getD (y * fb.width + x) 0,
     (applyCall fb c).emission_buffer.getD (y * fb.width + x) 0)
    = if c.x = x ∧ c.y = y
      then pixelStep (fb.zbuffer.getD (y * fb.width + x) ⊤,
        fb.buffer.getD (y * fb.width + x) 0,
        fb.emission_buffer.getD (y * fb.width + x) 0) c
      else (fb.zbuffer.getD (y * fb.width + x) ⊤,
        fb.buffer.getD (y * fb.width + x) 0,
        fb.emission_buffer.getD (y * fb.width + x) 0) := by
  by_cases heq : c.x = x ∧ c.y = y
  · obtain ⟨h1, h2⟩ := heq
    subst h1
    subst h2
    rw [if_pos ⟨rfl, rfl⟩]
    have hib : c.y * fb.width + c.x < fb.buffer.length := by
      rw [hwf.1]; exact index_lt hcx hcy
    have hiz : c.y * fb.width + c.x < fb.zbuffer.length := by
      rw [hwf.2.1]; exact index_lt hcx hcy
    have hie : c.y * fb.width + c.x < fb.emission_buffer.length := by
      rw [hwf.2.2]; exact index_lt hcx hcy
    by_cases hd : (c.depth : Depth) < fb.zbuffer.getD (c.y * fb.width + c.x) ⊤
    · have hwin := point_with_emission_win (fb.set_current_color c.color) c.x c.y
        ((c.depth : Depth)) c.emission hcx hcy hd
      unfold applyCall
      rw [hwin]
      simp only [Framebuffer.set_current_color]
      unfold pixelStep
      rw [if_pos hd]
      rw [getD_set_self fb.zbuffer _ _ _ hiz, getD_set_self fb.buffer _ _ _ hib,
        getD_set_self fb.emission_buffer _ _ _ hie]
    · have hlose := point_with_emission_lose (fb.set_current_color c.color) c.x c.y
        ((c.depth : Depth)) c.emission hcx hcy hd
      unfold applyCall
      rw [hlose]
      simp only [Framebuffer.set_current_color]
      unfold pixelStep
      rw [if_neg hd]
  · rw [if_neg heq]
    have hne : c.y * fb.width + c.x ≠ y * fb.width + x :=
      index_ne hx hy hcx hcy heq
    by_cases hd : (c.depth : Depth)
        < fb.zbuffer.getD (c.y * fb.width + c.x) ⊤
    · have hwin := point_with_emission_win (fb.set_current_color c.color) c.x c.y
        ((c.depth : Depth)) c.emission hcx hcy hd
      unfold applyCall
      rw [hwin]
      simp only [Framebuffer.set_current_color]
      rw [getD_set_ne fb.zbuffer _ _ _ _ hne, getD_set_ne fb.buffer _ _ _ _ hne,
        getD_set_ne fb.emission_buffer _ _ _ _ hne]
    · have hlose := point_with_emission_lose (fb.set_current_color c.color) c.x c.y
        ((c.depth : Depth)) c.emission hcx hcy hd
      unfold applyCall
      rw [hlose]
      simp only [Framebuffer.set_current_color]

/-- A whole sequence of depth-tested writes, viewed from one in-bounds
pixel, is the per-pixel fold over exactly the calls that target it. -/
theorem applyCalls_pixel (calls : List WriteCall) :
    ∀ (fb : Framebuffer), fb.Wf →
    (∀ c ∈ calls, c.x < fb.width ∧ c.y < fb.height) →
    ∀ x y, x < fb.width → y < fb.height →
    ((applyCalls fb calls).zbuffer.getD (y * fb.width + x) ⊤,
     (applyCalls fb calls).buffer.getD (y * fb.width + x) 0,
     (applyCalls fb calls).emission_buffer.getD (y * fb.width + x) 0)
    = (calls.filter (fun c2 => c2.x == x && c2.y == y)).foldl pixelStep
        (fb.zbuffer.getD (y * fb.width + x) ⊤,
         fb.buffer.getD (y * fb.width + x) 0,
         fb.emission_buffer.getD (y * fb.width + x) 0) := by
  induction calls with
  | nil =>
    intro fb _ _ x y _ _
    rfl
  | cons c rest ih =>
    intro fb hwf hb x y hx hy
    have hc := hb c (List.mem_cons_self c rest)
    have hrest : ∀ c2 ∈ rest, c2.x < fb.width ∧ c2.y < fb.height :=
      fun c2 h2 => hb c2 (List.mem_cons_of_mem c h2)
    have hpres := applyCall_preserve fb c
    have hwf1 : (applyCall fb c).Wf := by
      refine ⟨?_, ?_, ?_⟩
      · rw [hpres.2.2.1, hpres.1, hpres.2.1]; exact hwf.1
      · rw [hpres.2.2.2.1, hpres.1, hpres.2.1]; exact hwf.2.1
      · rw [hpres.2.2.2.2.1, hpres.1, hpres.2.1]; exact hwf.2.2
    have hrest1 : ∀ c2 ∈ rest, c2.x < (applyCall fb c).width ∧
        c2.y < (applyCall fb c).height := by
      intro c2 h2
      rw [hpres.1, hpres.2.1]
      exact hrest c2 h2
    have hx1 : x < (applyCall fb c).width := by rw [hpres.1]; exact hx
    have hy1 : y < (applyCall fb c).height := by rw [hpres.2.1]; exact hy
    have hih := ih (applyCall fb c) hwf1 hrest1 x y hx1 hy1
    rw [hpres.1] at hih
    show ((applyCalls (applyCall fb c) rest).zbuffer.getD (y * fb.width + x) ⊤,
      (applyCalls (applyCall fb c) rest).buffer.getD (y * fb.width + x) 0,
      (applyCalls (applyCall fb c) rest).emission_buffer.getD (y * fb.width + x) 0) = _
    rw [hih, applyCall_state fb c hwf hc.1 hc.2 x y hx hy]
    by_cases hcb : c.x = x ∧ c.y = y
    · rw [if_pos hcb]
      have hfilter : (c :: rest).filter (fun c2 => c2.x == x && c2.y == y)
          = c :: rest.filter (fun c2 => c2.x == x && c2.y == y) := by
        rw [List.filter_cons_of_pos]
        simp [hcb.1, hcb.2]
      rw [hfilter, List.foldl_cons]
    · rw [if_neg hcb]
      have hfilter : (c :: rest).filter (fun c2 => c2.x == x && c2.y == y)
          = rest.filter (fun c2 => c2.x == x && c2.y == y) := by
        rw [List.filter_cons_of_neg]
        simpa using hcb
      rw [hfilter]

/-- C3: after any finite sequence of in-bounds depth-tested writes on a
freshly cleared framebuffer, each pixel stores the minimum depth among the
calls that targeted it (`+∞`, with the background color and zero emission,
when none did), and the color and emission of the first call that attained
that minimum. -/
theorem C3_nearest_fragment_wins (fb : Framebuffer) (calls : List WriteCall)
    (hwf : fb.Wf) (hb : ∀ c ∈ calls, c.x < fb.width ∧ c.y < fb.height)
    (x y : Nat) (hx : x < fb.width) (hy : y < fb.height) :
    (applyCalls fb.clear calls).zbuffer.getD (y * fb.width + x) ⊤
        = minDepth (calls.filter (fun c2 => c2.x == x && c2.y == y)) ∧
    (minDepth (calls.filter (fun c2 => c2.x == x && c2.y == y)) = ⊤ →
      (applyCalls fb.clear calls).buffer.getD (y * fb.width + x) 0
          = fb.background_color ∧
      (applyCalls fb.clear calls).emission_buffer.getD (y * fb.width + x) 0
          = 0) ∧
    (∀ (q : ℚ) (c : WriteCall),
      minDepth (calls.filter (fun c2 => c2.x == x && c2.y == y)) = (q : Depth) →
      (calls.filter (fun c2 => c2.x == x && c2.y == y)).find?
          (fun c2 => decide (c2.depth = q)) = some c →
      (applyCalls fb.clear calls).buffer.getD (y * fb.width + x) 0 = c.color ∧
      (applyCalls fb.clear calls).emission_buffer.getD (y * fb.width + x) 0
          = c.emission) := by
  have hwfc : fb.clear.Wf := by
    refine ⟨?_, ?_, ?_⟩
    · show (fb.buffer.map _).length = _
      rw [List.length_map]
      exact hwf.1
    · show (fb.zbuffer.map _).length = _
      rw [List.length_map]
      exact hwf.2.1
    · show (fb.emission_buffer.map _).length = _
      rw [List.length_map]
      exact hwf.2.2
  have hz0 : fb.clear.zbuffer.getD (y * fb.width + x) ⊤ = ⊤ := by
    show (fb.zbuffer.map (fun _ => (⊤ : Depth))).getD (y * fb.width + x) ⊤ = ⊤
    rw [map_const_eq_replicate]
    exact getD_replicate _ _ _ _ (by rw [hwf.2.1]; exact index_lt hx hy)
  have hb0 : fb.clear.buffer.getD (y * fb.width + x) 0 = fb.background_color := by
    show (fb.buffer.map (fun _ => fb.background_color)).getD (y * fb.width + x) 0
        = fb.background_color
    rw [map_const_eq_replicate]
    exact getD_replicate _ _ _ _ (by rw [hwf.1]; exact index_lt hx hy)
  have he0 : fb.clear.emission_buffer.getD (y * fb.width + x) 0 = 0 := by
    show (fb.emission_buffer.map (fun _ => 0)).getD (y * fb.width + x) 0 = 0
    rw [map_const_eq_replicate]
    exact getD_replicate _ _ _ _ (by rw [hwf.2.2]; exact index_lt hx hy)
  have hA := applyCalls_pixel calls fb.clear hwfc hb x y hx hy
  simp only [show fb.clear.width = fb.width from rfl] at hA
  rw [hz0, hb0, he0] at hA
  by_cases hm : minDepth (calls.filter (fun c2 => c2.x == x && c2.y == y)) = ⊤
  · have hstay := foldl_pixelStep_stable
      (calls.filter (fun c2 => c2.x == x && c2.y == y))
      ((⊤ : Depth), fb.background_color, 0) (by rw [hm])
    rw [hstay] at hA
    simp only [Prod.mk.injEq] at hA
    obtain ⟨hA1, hA2, hA3⟩ := hA
    refine ⟨by rw [hA1, hm], fun _ => ⟨hA2, hA3⟩, ?_⟩
    intro q c hq _
    rw [hm] at hq
    exact absurd hq (by simp)
  · obtain ⟨q0, hq0⟩ := WithTop.ne_top_iff_exists.mp hm
    obtain ⟨c0, hc0⟩ := find?_of_minDepth
      (calls.filter (fun c2 => c2.x == x && c2.y == y)) q0 hq0.symm
    have hfold := foldl_pixelStep_find
      (calls.filter (fun c2 => c2.x == x && c2.y == y))
      ((⊤ : Depth), fb.background_color, 0) q0 c0 hq0.symm
      (WithTop.coe_lt_top q0) hc0
    rw [hfold] at hA
    simp only [Prod.mk.injEq] at hA
    obtain ⟨hA1, hA2, hA3⟩ := hA
    refine ⟨by rw [hA1]; exact hq0, ?_, ?_⟩
    · intro hcon
      exact absurd (hq0.trans hcon) (by simp)
    · intro q c hq hfindq
      have hqq : q0 = q := WithTop.coe_injective (hq0.trans hq)
      subst hqq
      rw [hc0] at hfindq
      injection hfindq with hcc
      subst hcc
      exact ⟨hA2, hA3⟩

/-- C3 witness: on a cleared 2×2 framebuffer, writes at pixel (0,0) with
depths 5, 3, 3 (and one write at pixel (1,0)) leave stored depth 3 and the
color/emission of the first depth-3 call. -/
theorem C3_nearest_fragment_wins_witness :
    (applyCalls (Framebuffer.new 2 2).clear
        [⟨0, 0, 5, 10, 7⟩, ⟨0, 0, 3, 20, 8⟩, ⟨1, 0, 4, 30, 9⟩,
          ⟨0, 0, 3, 40, 11⟩]).zbuffer.getD 0 ⊤ = ((3 : ℚ) : Depth) ∧
    (applyCalls (Framebuffer.new 2 2).clear
        [⟨0, 0, 5, 10, 7⟩, ⟨0, 0, 3, 20, 8⟩, ⟨1, 0, 4, 30, 9⟩,
          ⟨0, 0, 3, 40, 11⟩]).buffer.getD 0 0 = 20 ∧
    (applyCalls (Framebuffer.new 2 2).clear
        [⟨0, 0, 5, 10, 7⟩, ⟨0, 0, 3, 20, 8⟩, ⟨1, 0, 4, 30, 9⟩,
          ⟨0, 0, 3, 40, 11⟩]).emission_buffer.getD 0 0 = 8 := by
  have h := C3_nearest_fragment_wins (Framebuffer.new 2 2)
    [⟨0, 0, 5, 10, 7⟩, ⟨0, 0, 3, 20, 8⟩, ⟨1, 0, 4, 30, 9⟩, ⟨0, 0, 3, 40, 11⟩]
    (by decide) (by decide) 0 0 (by decide) (by decide)
  have h3 := h.2.2 3 ⟨0, 0, 3, 20, 8⟩ (by decide) (by decide)
  exact ⟨h.1.trans (by decide), h3.1, h3.2⟩

/-! ### FBM noise -/

/-- Closed form of the FBM octave loop: after `n` octaves the value is
the octave sum, the amplitude is `0.6 ^ n` and the frequency is `2 ^ n`. -/
theorem fbm_state (noise : ℚ → ℚ → ℚ) (x y : ℚ) (n : Nat) :
    (List.range n).foldl
      (fun (s : ℚ × ℚ × ℚ) (i : Nat) =>
        (s.1 + noise (x * s.2.2 + (i : ℚ) * 0.1) (y * s.2.2 + (i : ℚ) * 0.1) * s.2.1,
          s.2.1 * 0.6, s.2.2 * 2))
      (0, 1, 1)
    = (∑ i ∈ Finset.range n,
        noise (x * 2 ^ i + (i : ℚ) * 0.1) (y * 2 ^ i + (i : ℚ) * 0.1) * 0.6 ^ i,
       0.6 ^ n, 2 ^ n) := by
  induction n with
  | zero => simp
  | succ m ih =>
    rw [List.range_succ, List.foldl_append, ih]
    simp only [List.foldl_cons, List.foldl_nil]
    rw [Finset.sum_range_succ, pow_succ, pow_succ]

/-- C5: `fbm_noise` is exactly the octave sum in which octave `i` samples
the base noise at frequency `2 ^ i` with offset `i · 0.1` and weight
`0.6 ^ i`; when the base noise is bounded by 1 in absolute value the
result is bounded by `Σ 0.6 ^ i`; and the function is deterministic. -/
theorem C5_fbm_octaves (noise : ℚ → ℚ → ℚ) (x y : ℚ) (n : Nat)
    (h : ∀ a b, |noise a b| ≤ 1) :
    fbm_noise noise x y n
      = ∑ i ∈ Finset.range n,
          noise (x * 2 ^ i + (i : ℚ) * 0.1) (y * 2 ^ i + (i : ℚ) * 0.1) * 0.6 ^ i ∧
    |fbm_noise noise x y n| ≤ ∑ i ∈ Finset.range n, (0.6 : ℚ) ^ i ∧
    fbm_noise noise x y n = fbm_noise noise x y n := by
  have hclosed : fbm_noise noise x y n
      = ∑ i ∈ Finset.range n,
          noise (x * 2 ^ i + (i : ℚ) * 0.1) (y * 2 ^ i + (i : ℚ) * 0.1) * 0.6 ^ i := by
    unfold fbm_noise
    rw [fbm_state]
  refine ⟨hclosed, ?_, rfl⟩
  rw [hclosed]
  calc |∑ i ∈ Finset.range n,
        noise (x * 2 ^ i + (i : ℚ) * 0.1) (y * 2 ^ i + (i : ℚ) * 0.1) * 0.6 ^ i|
      ≤ ∑ i ∈ Finset.range n,
        |noise (x * 2 ^ i + (i : ℚ) * 0.1) (y * 2 ^ i + (i : ℚ) * 0.1) * 0.6 ^ i| :=
        Finset.abs_sum_le_sum_abs _ _
    _ ≤ ∑ i ∈ Finset.range n, (0.6 : ℚ) ^ i := by
        apply Finset.sum_le_sum
        intro i _
        rw [abs_mul, abs_pow]
        have h06 : |(0.6 : ℚ)| = 0.6 := by norm_num
        rw [h06]
        have hpow : (0 : ℚ) ≤ 0.6 ^ i := by positivity
        calc |noise (x * 2 ^ i + (i : ℚ) * 0.1) (y * 2 ^ i + (i : ℚ) * 0.1)|
              * 0.6 ^ i
            ≤ 1 * 0.6 ^ i := mul_le_mul_of_nonneg_right (h _ _) hpow
          _ = 0.6 ^ i := one_mul _

/-- C5 witness: with the constant base noise 1/2 (bounded by 1) and two
octaves, the bound from the theorem holds. -/
theorem C5_fbm_octaves_witness :
    |fbm_noise (fun _ _ => 1/2) 0 0 2| ≤ ∑ i ∈ Finset.range 2, (0.6 : ℚ) ^ i :=
  (C5_fbm_octaves (fun _ _ => 1/2) 0 0 2 (fun _ _ => abs_le.mpr ⟨by norm_num, by norm_num⟩)).2.1

/-! ### The vertex transform stage -/

theorem det_transpose (A : Mat3) : A.transpose.det = A.det := by
  unfold Mat3.transpose Mat3.det
  ring

theorem mul_inverse (A : Mat3) (h : A.det ≠ 0) :
    A.mul A.inverse = Mat3.identity := by
  unfold Mat3.mul Mat3.inverse Mat3.identity
  simp only [Mat3.mk.injEq]
  refine ⟨?_, ?_, ?_, ?_, ?_, ?_, ?_, ?_, ?_⟩ <;>
    · unfold Mat3.det at h ⊢
      field_simp
      ring

theorem inverse_mul (A : Mat3) (h : A.det ≠ 0) :
    A.inverse.mul A = Mat3.identity := by
  unfold Mat3.mul Mat3.inverse Mat3.identity
  simp only [Mat3.mk.injEq]
  refine ⟨?_, ?_, ?_, ?_, ?_, ?_, ?_, ?_, ?_⟩ <;>
    · unfold Mat3.det at h ⊢
      field_simp
      ring

theorem identity_mulVec (v : Vec3) : Mat3.identity.mulVec v = v := by
  cases v with
  | mk a b c => simp [Mat3.mulVec, Mat3.identity]

/-- The transformed normal computed by `vertex_shader`, before resolving
the `try_inverse` fallback. -/
theorem vertex_shader_normal (sinf : ℚ → ℚ) (v : Vertex) (u : Uniforms) :
    (vertex_shader sinf v u).transformed_normal
      = ((mat4_to_mat3 u.model_matrix).transpose.tryInverse.getD
          Mat3.identity).mulVec v.normal := rfl

/-- C7: the vertex transform stage computes the shading normal by
multiplying the model-space normal with the inverse of the transpose of
the model matrix's 3×3 linear part — a genuine two-sided inverse — and
falls back to the identity transform when that 3×3 matrix is singular,
so the stage is total and never fails. -/
theorem C7_normal_matrix_fallback (sinf : ℚ → ℚ) (v : Vertex) (u : Uniforms) :
    ((mat4_to_mat3 u.model_matrix).det ≠ 0 →
      (mat4_to_mat3 u.model_matrix).transpose.tryInverse
          = some (mat4_to_mat3 u.model_matrix).transpose.inverse ∧
      (mat4_to_mat3 u.model_matrix).transpose.mul
          (mat4_to_mat3 u.model_matrix).transpose.inverse = Mat3.identity ∧
      (mat4_to_mat3 u.model_matrix).transpose.inverse.mul
          (mat4_to_mat3 u.model_matrix).transpose = Mat3.identity ∧
      (vertex_shader sinf v u).transformed_normal
          = (mat4_to_mat3 u.model_matrix).transpose.inverse.mulVec v.normal) ∧
    ((mat4_to_mat3 u.model_matrix).det = 0 →
      (mat4_to_mat3 u.model_matrix).transpose.tryInverse = none ∧
      (vertex_shader sinf v u).transformed_normal = v.normal) := by
  constructor
  · intro hdet
    have htr : (mat4_to_mat3 u.model_matrix).transpose.det ≠ 0 := by
      rw [det_transpose]
      exact hdet
    have hsome : (mat4_to_mat3 u.model_matrix).transpose.tryInverse
        = some (mat4_to_mat3 u.model_matrix).transpose.inverse := by
      unfold Mat3.tryInverse
      rw [if_neg htr]
    refine ⟨hsome, mul_inverse _ htr, inverse_mul _ htr, ?_⟩
    rw [vertex_shader_normal, hsome, Option.getD_some]
  · intro hdet
    have htr : (mat4_to_mat3 u.model_matrix).transpose.det = 0 := by
      rw [det_transpose]
      exact hdet
    have hnone : (mat4_to_mat3 u.model_matrix).transpose.tryInverse = none := by
      unfold Mat3.tryInverse
      rw [if_pos htr]
    refine ⟨hnone, ?_⟩
    rw [vertex_shader_normal, hnone, Option.getD_none, identity_mulVec]

/-- C7 witness: with the identity model matrix (determinant 1) the
shading normal is multiplied by the (identity) inverse transpose. -/
theorem C7_normal_matrix_fallback_witness :
    (mat4_to_mat3 uWitness.model_matrix).det ≠ 0 ∧
    (vertex_shader (fun _ => 0) vWitness uWitness).transformed_normal
      = (mat4_to_mat3 uWitness.model_matrix).transpose.inverse.mulVec
          vWitness.normal := by
  have hdet : (mat4_to_mat3 uWitness.model_matrix).det ≠ 0 := by
    norm_num [uWitness, Mat4.identity, mat4_to_mat3, Mat3.det]
  exact ⟨hdet,
    ((C7_normal_matrix_fallback (fun _ => 0) vWitness uWitness).1 hdet).2.2.2⟩

/-- C8: the vertex record returned by the vertex transform stage carries
the input's model-space position (the wobble never reaches the position
field), normal, texture coordinates and intrinsic color unchanged; the
stage is a pure function producing a new record, mutating nothing. -/
theorem C8_vertex_shader_preserves_attributes (sinf : ℚ → ℚ) (v : Vertex)
    (u : Uniforms) :
    (vertex_shader sinf v u).position = v.position ∧
    (vertex_shader sinf v u).normal = v.normal ∧
    (vertex_shader sinf v u).tex_coords = v.tex_coords ∧
    (vertex_shader sinf v u).color = v.color :=
  ⟨rfl, rfl, rfl, rfl⟩

end Lab4
